import Mathlib

/-!
# Verification of `scrape-bahn`: fare-matrix ingestion and cheapest-combination solver

Shallow embedding of `find_cheapest_tickets.py` (parser `parse_tsv_file`, solver
`find_cheapest_route`, reporting `analyze_tickets`) and of the artifact writer
`write_tsv_file` from `scrape_bahn_prices.py`.

Modelling conventions:
* A TSV artifact is modelled at row level as `List (List String)` (cells of each
  row); Python's `csv` module round-trips rows of tab-free cells exactly.
* Monetary values (Python `float`) are modelled as `ℚ`; Python's
  `float('inf')` sentinel for an unreachable cost is modelled as `none` in
  `Option ℚ`.
* Python's `str.strip` is `pyStrip` (ASCII whitespace), `float(...)` is
  `pyFloat` (sign, integer digits, optional fractional part — the decimal
  sublanguage actually exercised by the artifact format; exotic `float`
  spellings such as exponents or `inf` are outside the model).
* `f"{x:.2f}"` is `format_price`’s rendering of `⌊100x + 1/2⌋` cents; this
  agrees with CPython on every exact multiple of `1/100`, the granularity the
  scraper writes.
-/

/-- The six ASCII whitespace characters removed by Python's `str.strip()`. -/
def isPySpace (c : Char) : Bool :=
  c = ' ' || c = '\t' || c = '\n' || c = '\r' || c = '\x0b' || c = '\x0c'

/-- Remove leading and trailing whitespace from a character list. -/
def stripChars (l : List Char) : List Char :=
  ((l.dropWhile isPySpace).reverse.dropWhile isPySpace).reverse

/-- Python `str.strip()` on a string. -/
def pyStrip (s : String) : String :=
  String.mk (stripChars s.data)

/-- Normalisation of one character of a German decimal: a comma becomes a
point, everything else is unchanged. -/
def commaFn (c : Char) : Char := if c = ',' then '.' else c

/-- `price_str.replace(',', '.')` — German decimal commas become points
(`find_cheapest_tickets.py` line 48). -/
def commaToDot (s : String) : String :=
  String.mk (s.data.map commaFn)

/-- Numeric value of a decimal digit character. -/
def digitVal (c : Char) : ℕ := c.toNat - 48

/-- Value of a string of decimal digit characters, most significant first. -/
def digitsToNat (l : List Char) : ℕ :=
  l.foldl (fun a c => 10 * a + digitVal c) 0

/-- Python `float(...)` on an already comma-normalised string, restricted to the
plain decimal sublanguage: optional surrounding whitespace, optional sign,
digits with at most one decimal point (with `float("1.") = 1`, `float(".5") = 0.5`,
and `float(".")` an error, as in CPython). -/
def parseFloatChars (l : List Char) : Option ℚ :=
  let t := stripChars l
  let su : ℚ × List Char :=
    if t.head? = some '-' then (-1, t.tail)
    else if t.head? = some '+' then (1, t.tail)
    else (1, t)
  let ip := su.2.takeWhile Char.isDigit
  let rest := su.2.dropWhile Char.isDigit
  if rest = [] then
    if ip.isEmpty then none else some (su.1 * (digitsToNat ip : ℚ))
  else if rest.head? = some '.' then
    let frac := rest.tail
    if ip.isEmpty && frac.isEmpty then none
    else if frac.all Char.isDigit then
      some (su.1 * ((digitsToNat ip : ℚ) + (digitsToNat frac : ℚ) / (10 : ℚ) ^ frac.length))
    else none
  else none

/-- Python `float` on a string (see `parseFloatChars`). -/
def pyFloat (s : String) : Option ℚ :=
  parseFloatChars s.data

/-- One fare cell of the artifact (`find_cheapest_tickets.py` lines 44–51):
strip the cell; keep it only if nonempty and neither `"?"` nor `"0"`; then
normalise the decimal comma and parse, recovering `none` on a parse failure. -/
def cellParse (cell : String) : Option ℚ :=
  let s := pyStrip cell
  if s ≠ "" ∧ s ≠ "?" ∧ s ≠ "0" then pyFloat (commaToDot s) else none

/-- Header-row extraction (`find_cheapest_tickets.py` lines 26 and 29): drop the
two metadata columns, strip every cell, keep the nonempty ones. -/
def headerCells (r : List String) : List String :=
  (r.drop 2).filterMap fun c =>
    let s := pyStrip c
    if s = "" then none else some s

/-- Failure mode of ingestion: an artifact with fewer than two header rows
(in the Python source, the `rows[0]` / `rows[1]` accesses raise and the batch
driver catches the exception). -/
inductive ParseError where
  | MalformedInput
deriving DecidableEq

/-- `parse_tsv_file` of `find_cheapest_tickets.py` (lines 12–53), at row level.
Returns the station list, the arrival-time list, and the n×n fare matrix;
entry (i, j) is populated only for `i ≤ j`, when price row `i` and its column
`2 + j` exist, and when the cell parses (`cellParse`). -/
def parse_tsv_file (rows : List (List String)) :
    Except ParseError (List String × List String × List (List (Option ℚ))) :=
  match rows with
  | r0 :: r1 :: _ =>
    let times := headerCells r0
    let stations := headerCells r1
    let n := stations.length
    let prices : List (List (Option ℚ)) :=
      (List.range n).map fun i =>
        (List.range n).map fun j =>
          if i + 2 < rows.length ∧ i ≤ j then
            let row := rows.getD (i + 2) []
            if 2 + j < row.length then cellParse (row.getD (2 + j) "") else none
          else none
    Except.ok (stations, times, prices)
  | _ => Except.error ParseError.MalformedInput

/-- Matrix lookup `prices[i][j]`, with `none` outside the matrix (the Python
code only ever indexes in bounds). -/
def mget (m : List (List (Option ℚ))) (i j : ℕ) : Option ℚ :=
  (m.getD i []).getD j none

/-- The decimal digit character for `d < 10`. -/
def digitOf (d : ℕ) : Char := Char.ofNat (48 + d)

/-- Decimal rendering of a natural number, most significant digit first
(models the integral part of CPython's fixed-point float formatting). -/
def natToDigits (n : ℕ) : List Char :=
  if _h : n < 10 then [digitOf n]
  else natToDigits (n / 10) ++ [digitOf (n % 10)]
decreasing_by
  exact Nat.div_lt_self (by omega) (by omega)

/-- Render a nonnegative number of cents as `"<euros>,<two cent digits>"`. -/
def centsRender (m : ℕ) : List Char :=
  natToDigits (m / 100) ++ [','] ++ [digitOf (m % 100 / 10), digitOf (m % 10)]

/-- `format_price` of `find_cheapest_tickets.py` (lines 97–99) and the inline
`f"{...:.2f}".replace('.', ',')` of `write_tsv_file`: two-decimal fixed-point
rendering with a decimal comma.  Rounding is `⌊100q + 1/2⌋` cents; on exact
multiples of `1/100` (all values the scraper writes) this is exact and agrees
with CPython. -/
def format_price (q : ℚ) : String :=
  let c : ℤ := Int.floor (q * 100 + 1 / 2)
  if c < 0 then String.mk ('-' :: centsRender c.natAbs)
  else String.mk (centsRender c.toNat)

/-- `write_tsv_file` of `scrape_bahn_prices.py` (lines 459–492), at row level:
first row `date`/`train` then the arrival times, second row two empty cells
then the station names, then for each station `i` its time, its name, `i`
empty cells, `"0"` on the diagonal, and for each later station the formatted
fare or `"?"`. -/
def write_tsv_rows (date train : String) (stations times : List String)
    (prices : List (List (Option ℚ))) : List (List String) :=
  ([date, train] ++ times) ::
  (["", ""] ++ stations) ::
  (List.range stations.length).map fun i =>
    [times.getD i "", stations.getD i ""] ++ List.replicate i "" ++
      (List.range' i (stations.length - i)).map fun j =>
        if i = j then "0"
        else
          match mget prices i j with
          | some p => format_price p
          | none => "?"

/-- One iteration of the inner relaxation loop of `find_cheapest_route`
(`find_cheapest_tickets.py` lines 76–80).  The accumulator holds the current
`(dp[i], prev[i])`; `cand j` is `dp[j] + prices[j][i]` when `prices[j][i]` is
defined and `dp[j]` is finite, otherwise `none`.  On `cost < dp[i]` (with an
unreached `dp[i] = ∞` comparing greater than everything) both cells update. -/
def chooseStep (cand : ℕ → Option ℚ) (acc : Option ℚ × Option ℕ) (j : ℕ) :
    Option ℚ × Option ℕ :=
  match cand j with
  | none => acc
  | some cost =>
    match acc.1 with
    | none => (some cost, some j)
    | some b => if cost < b then (some cost, some j) else acc

/-- The inner loop `for j in range(i)` of `find_cheapest_route`, folded over the
candidate predecessors in ascending order. -/
def chooseBest (cand : ℕ → Option ℚ) (l : List ℕ) (acc : Option ℚ × Option ℕ) :
    Option ℚ × Option ℕ :=
  l.foldl (chooseStep cand) acc

/-- The candidate cost of reaching station `i` via predecessor `j`
(guard and `cost = dp[j] + prices[j][i]` of lines 76–77), for a given
dp valuation. -/
def candOf (f : ℕ → ℕ → Option ℚ) (dp : ℕ → Option ℚ) (i j : ℕ) : Option ℚ :=
  match f j i, dp j with
  | some fr, some c => some (c + fr)
  | _, _ => none

/-- The dp/prev table of `find_cheapest_route` (lines 68–80): entry `i` of
`dpTable f k` (for `i < k`) is `(dp[i], prev[i])`, with `none` for the
`float('inf')` / `-1` sentinels.  Entry `0` is `(0, -1)`; entry `i ≥ 1` is the
minimum of `dp[j] + prices[j][i]` over `j < i`, found by `chooseBest`.
Iteration `i` of the Python loop reads only entries below `i`, so the table
grows one final entry per step. -/
def dpTable (f : ℕ → ℕ → Option ℚ) : ℕ → List (Option ℚ × Option ℕ)
  | 0 => []
  | k + 1 =>
    let t := dpTable f k
    t ++ [if k = 0 then (some 0, none)
          else chooseBest (candOf f (fun j => (t.getD j (none, none)).1) k)
            (List.range k) (none, none)]

/-- `(dp[i], prev[i])` after the relaxation loops of `find_cheapest_route`. -/
def dpPair (f : ℕ → ℕ → Option ℚ) (i : ℕ) : Option ℚ × Option ℕ :=
  (dpTable f (i + 1)).getD i (none, none)

/-- The candidate cost of reaching station `i` via predecessor `j`, under the
final dp valuation. -/
def candCost (f : ℕ → ℕ → Option ℚ) (i j : ℕ) : Option ℚ :=
  candOf f (fun j' => (dpPair f j').1) i j

/-- Path reconstruction of `find_cheapest_route` (lines 86–92): walk the
`prev` pointers back from `current` and reverse — rendered as a recursion that
emits the edges already in forward order.  Each step consumes one unit of
fuel; predecessor indices strictly decrease, so fuel `n` covers every walk the
solver performs. -/
def buildPath (f : ℕ → ℕ → Option ℚ) : ℕ → ℕ → List (ℕ × ℕ)
  | 0, _ => []
  | fuel + 1, current =>
    match (dpPair f current).2 with
    | none => []
    | some j => buildPath f fuel j ++ [(j, current)]

/-- `find_cheapest_route` of `find_cheapest_tickets.py` (lines 56–94).
Returns `(none, [])` where the source returns `(float('inf'), [])`.
(For `n = 0` the source raises an `IndexError` on `dp[0] = 0`; the embedding
is total and the theorems below only concern `n ≥ 2`.) -/
def find_cheapest_route (stations : List String)
    (prices : List (List (Option ℚ))) : Option ℚ × List (ℕ × ℕ) :=
  let n := stations.length
  match (dpPair (mget prices) (n - 1)).1 with
  | none => (none, [])
  | some c => (some c, buildPath (mget prices) n (n - 1))

/-- `path` is a chain of segments linking end-to-start from station `a` to
station `b`: each segment `(x, y)` has `x < y` and a defined fare, the first
starts at `a`, consecutive segments share their junction, the last ends
at `b`. -/
def ChainFrom (f : ℕ → ℕ → Option ℚ) : ℕ → List (ℕ × ℕ) → ℕ → Prop
  | a, [], b => a = b
  | a, (x, y) :: rest, b => x = a ∧ x < y ∧ (f x y).isSome ∧ ChainFrom f y rest b

/-- A purchasable ticket chain from station `0` to station `n - 1`. -/
def IsTicketChain (f : ℕ → ℕ → Option ℚ) (n : ℕ) (p : List (ℕ × ℕ)) : Prop :=
  ChainFrom f 0 p (n - 1)

/-- Total fare of a chain of segments. -/
def chainCost (f : ℕ → ℕ → Option ℚ) (p : List (ℕ × ℕ)) : ℚ :=
  (p.map fun e => (f e.1 e.2).getD 0).sum

/-- The `min_cost == float('inf')` check of `analyze_tickets`
(`find_cheapest_tickets.py` lines 126–128): the no-valid-route report. -/
def analyze_reports_no_route (stations : List String)
    (prices : List (List (Option ℚ))) : Bool :=
  ((find_cheapest_route stations prices).1).isNone

/-- Invariant of the inner relaxation loop after processing the predecessors
in `done`: either nothing relaxed yet and no processed candidate was defined,
or the accumulator holds the least processed candidate cost together with the
least index attaining it. -/
def bestInv (cand : ℕ → Option ℚ) (done : List ℕ) (acc : Option ℚ × Option ℕ) : Prop :=
  (acc = (none, none) ∧ ∀ j ∈ done, cand j = none) ∨
  (∃ b j, acc = (some b, some j) ∧ j ∈ done ∧ cand j = some b ∧
    (∀ j' ∈ done, ∀ c, cand j' = some c → b ≤ c) ∧
    (∀ j' ∈ done, j' < j → ∀ c, cand j' = some c → b < c))

/-- A fare cell is an exact multiple of one cent (the granularity
`write_tsv_file` can represent). -/
def centValued (o : Option ℚ) : Bool :=
  match o with
  | none => true
  | some q => (q * 100).den == 1

/-- A concrete fare matrix with a tie: station 2 is reachable for 5 both
directly (fare 5) and via station 1 (2 + 3). -/
def tiePrices : List (List (Option ℚ)) :=
  [[none, some 2, some 5], [none, none, some 3], [none, none, none]]

/-! ## The inner relaxation loop: minimum and first-minimiser invariant -/

theorem bestInv_step (cand : ℕ → Option ℚ) (done : List ℕ) (acc : Option ℚ × Option ℕ)
    (x : ℕ) (h : bestInv cand done acc) (hlt : ∀ j ∈ done, j < x) :
    bestInv cand (done ++ [x]) (chooseStep cand acc x) := by
  rcases h with ⟨hacc, hnone⟩ | ⟨b, j, hacc, hj, hcj, hmin, hleast⟩
  · subst hacc
    cases hx : cand x with
    | none =>
      left
      refine ⟨by simp [chooseStep, hx], ?_⟩
      intro j hj
      rcases List.mem_append.mp hj with hj | hj
      · exact hnone j hj
      · simpa [List.mem_singleton.mp hj] using hx
    | some cost =>
      right
      refine ⟨cost, x, by simp [chooseStep, hx], by simp, hx, ?_, ?_⟩
      · intro j' hj' c hc
        rcases List.mem_append.mp hj' with hj' | hj'
        · exact absurd hc (by simp [hnone j' hj'])
        · rw [List.mem_singleton.mp hj'] at hc
          rw [hx] at hc
          exact le_of_eq (Option.some.inj hc)
      · intro j' hj' hj'x c hc
        rcases List.mem_append.mp hj' with hj' | hj'
        · exact absurd hc (by simp [hnone j' hj'])
        · exact absurd (List.mem_singleton.mp hj') (by omega)
  · subst hacc
    cases hx : cand x with
    | none =>
      right
      refine ⟨b, j, by simp [chooseStep, hx], by simp [hj], hcj, ?_, ?_⟩
      · intro j' hj' c hc
        rcases List.mem_append.mp hj' with hj' | hj'
        · exact hmin j' hj' c hc
        · rw [List.mem_singleton.mp hj'] at hc
          exact absurd hc (by simp [hx])
      · intro j' hj' hj'j c hc
        rcases List.mem_append.mp hj' with hj' | hj'
        · exact hleast j' hj' hj'j c hc
        · rw [List.mem_singleton.mp hj'] at hc
          exact absurd hc (by simp [hx])
    | some cost =>
      by_cases hcb : cost < b
      · right
        refine ⟨cost, x, by simp [chooseStep, hx, hcb], by simp, hx, ?_, ?_⟩
        · intro j' hj' c hc
          rcases List.mem_append.mp hj' with hj' | hj'
          · exact le_of_lt (lt_of_lt_of_le hcb (hmin j' hj' c hc))
          · rw [List.mem_singleton.mp hj'] at hc
            rw [hx] at hc
            exact le_of_eq (Option.some.inj hc)
        · intro j' hj' hj'x c hc
          rcases List.mem_append.mp hj' with hj' | hj'
          · exact lt_of_lt_of_le hcb (hmin j' hj' c hc)
          · exact absurd (List.mem_singleton.mp hj') (by omega)
      · right
        refine ⟨b, j, by simp [chooseStep, hx, hcb], by simp [hj], hcj, ?_, ?_⟩
        · intro j' hj' c hc
          rcases List.mem_append.mp hj' with hj' | hj'
          · exact hmin j' hj' c hc
          · rw [List.mem_singleton.mp hj'] at hc
            rw [hx] at hc
            rw [← Option.some.inj hc]
            exact le_of_not_lt hcb
        · intro j' hj' hj'j c hc
          rcases List.mem_append.mp hj' with hj' | hj'
          · exact hleast j' hj' hj'j c hc
          · have := hlt j hj
            have := List.mem_singleton.mp hj'
            omega

theorem bestInv_foldl (cand : ℕ → Option ℚ) (l : List ℕ) :
    ∀ (done : List ℕ) (acc : Option ℚ × Option ℕ), bestInv cand done acc →
    (∀ j ∈ done, ∀ k ∈ l, j < k) → l.Pairwise (· < ·) →
    bestInv cand (done ++ l) (chooseBest cand l acc) := by
  induction l with
  | nil => intro done acc h _ _; simpa [chooseBest] using h
  | cons x l ih =>
    intro done acc h hord hpw
    have hstep : bestInv cand (done ++ [x]) (chooseStep cand acc x) :=
      bestInv_step cand done acc x h
        (fun j hj => hord j hj x (List.mem_cons_self x l))
    have hord' : ∀ j ∈ done ++ [x], ∀ k ∈ l, j < k := by
      intro j hj k hk
      rcases List.mem_append.mp hj with hj | hj
      · exact hord j hj k (List.mem_cons_of_mem x hk)
      · rw [List.mem_singleton.mp hj]
        exact (List.pairwise_cons.mp hpw).1 k hk
    have := ih (done ++ [x]) (chooseStep cand acc x) hstep hord'
      (List.pairwise_cons.mp hpw).2
    simpa [chooseBest, List.append_assoc] using this

theorem bestInv_range (cand : ℕ → Option ℚ) (i : ℕ) :
    bestInv cand (List.range i) (chooseBest cand (List.range i) (none, none)) := by
  have := bestInv_foldl cand (List.range i) [] (none, none)
    (Or.inl ⟨rfl, by simp⟩) (by simp) (List.pairwise_lt_range i)
  simpa using this

/-! ## The dp table -/

theorem dpTable_length (f : ℕ → ℕ → Option ℚ) (k : ℕ) : (dpTable f k).length = k := by
  induction k with
  | zero => rfl
  | succ k ih => simp [dpTable, ih]

theorem dpTable_getD (f : ℕ → ℕ → Option ℚ) (k i : ℕ) (h : i < k) :
    (dpTable f k).getD i (none, none) = dpPair f i := by
  induction k with
  | zero => omega
  | succ k ih =>
    rcases Nat.lt_or_ge i k with hik | hik
    · rw [show dpTable f (k + 1) = dpTable f k ++ [_] from rfl,
        List.getD_append _ _ _ _ (by rw [dpTable_length]; exact hik)]
      exact ih hik
    · have : i = k := by omega
      subst this
      rfl

theorem chooseBest_congr (c1 c2 : ℕ → Option ℚ) (l : List ℕ)
    (h : ∀ j ∈ l, c1 j = c2 j) (acc : Option ℚ × Option ℕ) :
    chooseBest c1 l acc = chooseBest c2 l acc := by
  induction l generalizing acc with
  | nil => rfl
  | cons x l ih =>
    have hx : c1 x = c2 x := h x (List.mem_cons_self x l)
    show chooseBest c1 l (chooseStep c1 acc x) = chooseBest c2 l (chooseStep c2 acc x)
    rw [show chooseStep c1 acc x = chooseStep c2 acc x by simp [chooseStep, hx]]
    exact ih (fun j hj => h j (List.mem_cons_of_mem x hj)) _

theorem dpPair_zero (f : ℕ → ℕ → Option ℚ) : dpPair f 0 = (some 0, none) := rfl

theorem dpPair_succ (f : ℕ → ℕ → Option ℚ) (i : ℕ) :
    dpPair f (i + 1) =
      chooseBest (candCost f (i + 1)) (List.range (i + 1)) (none, none) := by
  have h1 : dpTable f (i + 2) = dpTable f (i + 1) ++
      [if i + 1 = 0 then (some 0, none)
       else chooseBest (candOf f
           (fun j => ((dpTable f (i + 1)).getD j (none, none)).1) (i + 1))
         (List.range (i + 1)) (none, none)] := rfl
  show (dpTable f (i + 2)).getD (i + 1) (none, none) = _
  rw [h1, List.getD_append_right _ _ _ _ (by rw [dpTable_length]), dpTable_length,
    Nat.sub_self, List.getD_cons_zero, if_neg (Nat.succ_ne_zero i)]
  exact chooseBest_congr _ _ _ (fun j hj => by
    simp only [candOf, candCost]
    rw [dpTable_getD f (i + 1) j (List.mem_range.mp hj)]) _

/-! ## Facts read off the relaxation invariant -/

theorem bestInv_dpPair (f : ℕ → ℕ → Option ℚ) (i : ℕ) :
    bestInv (candCost f (i + 1)) (List.range (i + 1)) (dpPair f (i + 1)) := by
  rw [dpPair_succ]
  exact bestInv_range _ _

theorem dp_fst_none_iff (f : ℕ → ℕ → Option ℚ) (i : ℕ) :
    (dpPair f (i + 1)).1 = none ↔ ∀ j < i + 1, candCost f (i + 1) j = none := by
  constructor
  · intro h j hj
    rcases bestInv_dpPair f i with ⟨_, hnone⟩ | ⟨b, j', hacc, _, _, _, _⟩
    · exact hnone j (List.mem_range.mpr hj)
    · rw [hacc] at h
      simp at h
  · intro h
    rcases bestInv_dpPair f i with ⟨hacc, _⟩ | ⟨b, j', hacc, hj', hcj', _, _⟩
    · rw [hacc]
    · exact absurd (h j' (List.mem_range.mp hj')) (by simp [hcj'])

theorem dp_fst_some_spec (f : ℕ → ℕ → Option ℚ) (i : ℕ) (b : ℚ)
    (h : (dpPair f (i + 1)).1 = some b) :
    ∃ j, (dpPair f (i + 1)).2 = some j ∧ j < i + 1 ∧ candCost f (i + 1) j = some b ∧
      ∀ j' < i + 1, ∀ c, candCost f (i + 1) j' = some c → b ≤ c := by
  rcases bestInv_dpPair f i with ⟨hacc, _⟩ | ⟨b', j, hacc, hj, hcj, hmin, _⟩
  · rw [hacc] at h
    simp at h
  · rw [hacc] at h
    have hb : b' = b := Option.some.inj h
    subst hb
    refine ⟨j, by rw [hacc], List.mem_range.mp hj, hcj, ?_⟩
    intro j' hj' c hc
    exact hmin j' (List.mem_range.mpr hj') c hc

theorem dp_snd_some_spec (f : ℕ → ℕ → Option ℚ) (i : ℕ) (j : ℕ)
    (h : (dpPair f (i + 1)).2 = some j) :
    ∃ b, (dpPair f (i + 1)).1 = some b ∧ j < i + 1 ∧ candCost f (i + 1) j = some b ∧
      (∀ j' < i + 1, ∀ c, candCost f (i + 1) j' = some c → b ≤ c) ∧
      (∀ j' < j, ∀ c, candCost f (i + 1) j' = some c → b < c) := by
  rcases bestInv_dpPair f i with ⟨hacc, _⟩ | ⟨b, j', hacc, hj', hcj', hmin, hleast⟩
  · rw [hacc] at h
    simp at h
  · rw [hacc] at h
    have hjj : j' = j := Option.some.inj h
    subst hjj
    refine ⟨b, by rw [hacc], List.mem_range.mp hj', hcj', ?_, ?_⟩
    · intro j'' hj'' c hc
      exact hmin j'' (List.mem_range.mpr hj'') c hc
    · intro j'' hj'' c hc
      have hj''r : j'' ∈ List.range (i + 1) :=
        List.mem_range.mpr (lt_trans hj'' (List.mem_range.mp hj'))
      exact hleast j'' hj''r hj'' c hc

theorem candCost_def (f : ℕ → ℕ → Option ℚ) (i j : ℕ) :
    candCost f i j =
      match f j i, (dpPair f j).1 with
      | some fr, some c => some (c + fr)
      | _, _ => none := rfl

theorem candCost_some (f : ℕ → ℕ → Option ℚ) (i j : ℕ) (b : ℚ) :
    candCost f i j = some b ↔
      ∃ fr c, f j i = some fr ∧ (dpPair f j).1 = some c ∧ c + fr = b := by
  rw [candCost_def]
  cases hf : f j i <;> cases hd : (dpPair f j).1 <;> simp

theorem candCost_eq (f : ℕ → ℕ → Option ℚ) (i j : ℕ) (fr c : ℚ)
    (hf : f j i = some fr) (hd : (dpPair f j).1 = some c) :
    candCost f i j = some (c + fr) := by
  rw [candCost_def, hf, hd]

/-! ## Chains of segments -/

theorem chainFrom_cons (f : ℕ → ℕ → Option ℚ) (a x y : ℕ) (rest : List (ℕ × ℕ)) (b : ℕ) :
    ChainFrom f a ((x, y) :: rest) b ↔
      x = a ∧ x < y ∧ (f x y).isSome ∧ ChainFrom f y rest b := Iff.rfl

theorem chainCost_nil (f : ℕ → ℕ → Option ℚ) : chainCost f [] = 0 := rfl

theorem chainCost_snoc (f : ℕ → ℕ → Option ℚ) (q : List (ℕ × ℕ)) (j i : ℕ) :
    chainCost f (q ++ [(j, i)]) = chainCost f q + (f j i).getD 0 := by
  simp [chainCost]

theorem chainFrom_le (f : ℕ → ℕ → Option ℚ) :
    ∀ (p : List (ℕ × ℕ)) (a b : ℕ), ChainFrom f a p b → a ≤ b := by
  intro p
  induction p with
  | nil => intro a b h; exact le_of_eq h
  | cons e p ih =>
    intro a b h
    obtain ⟨x, y⟩ := e
    obtain ⟨hxa, hxy, _, hrest⟩ := (chainFrom_cons f a x y p b).mp h
    have := ih y b hrest
    omega

theorem chainFrom_self (f : ℕ → ℕ → Option ℚ) (a : ℕ) (p : List (ℕ × ℕ))
    (h : ChainFrom f a p a) : p = [] := by
  cases p with
  | nil => rfl
  | cons e p =>
    obtain ⟨x, y⟩ := e
    obtain ⟨hxa, hxy, _, hrest⟩ := (chainFrom_cons f a x y p a).mp h
    have := chainFrom_le f p y a hrest
    omega

theorem chainFrom_snoc (f : ℕ → ℕ → Option ℚ) :
    ∀ (q : List (ℕ × ℕ)) (a j i : ℕ), ChainFrom f a q j → j < i → (f j i).isSome →
      ChainFrom f a (q ++ [(j, i)]) i := by
  intro q
  induction q with
  | nil =>
    intro a j i hq hji hf
    rw [show a = j from hq]
    exact (chainFrom_cons f j j i [] i).mpr ⟨rfl, hji, hf, rfl⟩
  | cons e q ih =>
    intro a j i hq hji hf
    obtain ⟨x, y⟩ := e
    obtain ⟨hxa, hxy, hsome, hrest⟩ := (chainFrom_cons f a x y q j).mp hq
    exact (chainFrom_cons f a x y (q ++ [(j, i)]) i).mpr
      ⟨hxa, hxy, hsome, ih y j i hrest hji hf⟩

theorem chainFrom_snoc_decomp (f : ℕ → ℕ → Option ℚ) :
    ∀ (p : List (ℕ × ℕ)) (a b : ℕ), ChainFrom f a p b → a ≠ b →
      ∃ q j, p = q ++ [(j, b)] ∧ ChainFrom f a q j ∧ j < b ∧ (f j b).isSome := by
  intro p
  induction p with
  | nil => intro a b h hne; exact absurd h hne
  | cons e p ih =>
    intro a b h hne
    obtain ⟨x, y⟩ := e
    obtain ⟨hxa, hxy, hsome, hrest⟩ := (chainFrom_cons f a x y p b).mp h
    by_cases hyb : y = b
    · subst hyb
      have hp : p = [] := chainFrom_self f y p hrest
      subst hp
      exact ⟨[], x, rfl, hxa.symm, hxy, hsome⟩
    · obtain ⟨q, j, hpq, hq, hjb, hsomej⟩ := ih y b hrest hyb
      exact ⟨(x, y) :: q, j, by simp [hpq], (chainFrom_cons f a x y q j).mpr
        ⟨hxa, hxy, hsome, hq⟩, hjb, hsomej⟩

/-! ## dp soundness and optimality -/

theorem dp_sound (f : ℕ → ℕ → Option ℚ) :
    ∀ (i : ℕ) (b : ℚ), (dpPair f i).1 = some b →
      ∃ p, ChainFrom f 0 p i ∧ chainCost f p = b := by
  intro i
  induction i using Nat.strong_induction_on with
  | _ i ih =>
    cases i with
    | zero =>
      intro b h
      rw [dpPair_zero] at h
      refine ⟨[], rfl, ?_⟩
      rw [chainCost_nil]
      exact Option.some.inj h
    | succ i =>
      intro b h
      obtain ⟨j, _, hji, hcand, _⟩ := dp_fst_some_spec f i b h
      obtain ⟨fr, c, hf, hd, hb⟩ := (candCost_some f (i + 1) j b).mp hcand
      obtain ⟨q, hq, hqc⟩ := ih j hji c hd
      refine ⟨q ++ [(j, i + 1)], chainFrom_snoc f q 0 j (i + 1) hq hji (by simp [hf]), ?_⟩
      rw [chainCost_snoc, hqc, hf, Option.getD_some]
      exact hb

theorem dp_le (f : ℕ → ℕ → Option ℚ) :
    ∀ (i : ℕ) (p : List (ℕ × ℕ)), ChainFrom f 0 p i →
      ∃ b, (dpPair f i).1 = some b ∧ b ≤ chainCost f p := by
  intro i
  induction i using Nat.strong_induction_on with
  | _ i ih =>
    cases i with
    | zero =>
      intro p hp
      have hp0 : p = [] := chainFrom_self f 0 p hp
      subst hp0
      refine ⟨0, by rw [dpPair_zero], ?_⟩
      rw [chainCost_nil]
    | succ i =>
      intro p hp
      obtain ⟨q, j, hpq, hq, hji, hsome⟩ :=
        chainFrom_snoc_decomp f p 0 (i + 1) hp (by omega)
      obtain ⟨cj, hdj, hcj⟩ := ih j hji q hq
      obtain ⟨fr, hfr⟩ := Option.isSome_iff_exists.mp hsome
      have hcand : candCost f (i + 1) j = some (cj + fr) := candCost_eq f (i + 1) j fr cj hfr hdj
      cases hdp : (dpPair f (i + 1)).1 with
      | none =>
        have := (dp_fst_none_iff f i).mp hdp j hji
        rw [this] at hcand
        exact absurd hcand (by simp)
      | some b =>
        obtain ⟨j', _, _, _, hmin⟩ := dp_fst_some_spec f i b hdp
        refine ⟨b, rfl, ?_⟩
        rw [hpq, chainCost_snoc, hfr, Option.getD_some]
        exact le_trans (hmin j hji _ hcand) (add_le_add_right hcj fr)

theorem dp_none_iff_no_chain (f : ℕ → ℕ → Option ℚ) (i : ℕ) :
    (dpPair f i).1 = none ↔ ¬∃ p, ChainFrom f 0 p i := by
  constructor
  · rintro h ⟨p, hp⟩
    obtain ⟨b, hb, _⟩ := dp_le f i p hp
    rw [h] at hb
    exact Option.noConfusion hb
  · intro h
    cases hdp : (dpPair f i).1 with
    | none => rfl
    | some b =>
      obtain ⟨p, hp, _⟩ := dp_sound f i b hdp
      exact absurd ⟨p, hp⟩ h

/-! ## Path reconstruction -/

theorem buildPath_correct (f : ℕ → ℕ → Option ℚ) :
    ∀ (fuel current : ℕ), current < fuel → ∀ c, (dpPair f current).1 = some c →
      ChainFrom f 0 (buildPath f fuel current) current ∧
        chainCost f (buildPath f fuel current) = c := by
  intro fuel
  induction fuel with
  | zero => intro current h; omega
  | succ fuel ih =>
    intro current hcur c hc
    cases current with
    | zero =>
      have hbp : buildPath f (fuel + 1) 0 = [] := by
        show (match (dpPair f 0).2 with
          | none => []
          | some j => buildPath f fuel j ++ [(j, 0)]) = []
        rw [dpPair_zero]
      rw [hbp]
      rw [dpPair_zero] at hc
      exact ⟨rfl, by rw [chainCost_nil]; exact Option.some.inj hc⟩
    | succ cur =>
      cases hprev : (dpPair f (cur + 1)).2 with
      | none =>
        obtain ⟨j, hj, _⟩ := dp_fst_some_spec f cur c hc
        rw [hprev] at hj
        exact Option.noConfusion hj
      | some j =>
        obtain ⟨b, hb, hji, hcand, _, _⟩ := dp_snd_some_spec f cur j hprev
        have hbc : b = c := by
          rw [hb] at hc
          exact Option.some.inj hc
        subst hbc
        obtain ⟨fr, cj, hf, hdj, hsum⟩ := (candCost_some f (cur + 1) j b).mp hcand
        have hih := ih j (by omega) cj hdj
        have hbp : buildPath f (fuel + 1) (cur + 1) =
            buildPath f fuel j ++ [(j, cur + 1)] := by
          show (match (dpPair f (cur + 1)).2 with
            | none => []
            | some j' => buildPath f fuel j' ++ [(j', cur + 1)]) = _
          rw [hprev]
        rw [hbp]
        refine ⟨chainFrom_snoc f _ 0 j (cur + 1) hih.1 hji (by simp [hf]), ?_⟩
        rw [chainCost_snoc, hih.2, hf, Option.getD_some]
        exact hsum

/-! ## `find_cheapest_route` in terms of the dp table -/

theorem find_eq_of_dp_some (stations : List String) (prices : List (List (Option ℚ)))
    (b : ℚ) (hb : (dpPair (mget prices) (stations.length - 1)).1 = some b) :
    find_cheapest_route stations prices =
      (some b, buildPath (mget prices) stations.length (stations.length - 1)) := by
  show (match (dpPair (mget prices) (stations.length - 1)).1 with
    | none => ((none : Option ℚ), ([] : List (ℕ × ℕ)))
    | some c => (some c, buildPath (mget prices) stations.length (stations.length - 1)))
    = _
  rw [hb]

theorem find_eq_of_dp_none (stations : List String) (prices : List (List (Option ℚ)))
    (hb : (dpPair (mget prices) (stations.length - 1)).1 = none) :
    find_cheapest_route stations prices = (none, []) := by
  show (match (dpPair (mget prices) (stations.length - 1)).1 with
    | none => ((none : Option ℚ), ([] : List (ℕ × ℕ)))
    | some c => (some c, buildPath (mget prices) stations.length (stations.length - 1)))
    = _
  rw [hb]

/-- **C1.** For `n ≥ 2` stations and any fare matrix, the `min_cost` component
of `find_cheapest_route` is a lower bound of the total fare of every chain of
defined-fare segments from station `0` to station `n - 1`, and whenever it is
a finite value `c`, the returned `path` is itself such a chain whose fares sum
to `c` — so `min_cost` is exactly the minimum chain cost and `path` attains it. -/
theorem find_cheapest_route_correct (stations : List String)
    (prices : List (List (Option ℚ))) (hn : 2 ≤ stations.length) :
    (∀ p, IsTicketChain (mget prices) stations.length p →
      ∃ c, (find_cheapest_route stations prices).1 = some c ∧
        c ≤ chainCost (mget prices) p) ∧
    (∀ c, (find_cheapest_route stations prices).1 = some c →
      IsTicketChain (mget prices) stations.length
        (find_cheapest_route stations prices).2 ∧
      chainCost (mget prices) (find_cheapest_route stations prices).2 = c) := by
  constructor
  · intro p hp
    obtain ⟨b, hb, hle⟩ := dp_le (mget prices) (stations.length - 1) p hp
    rw [find_eq_of_dp_some stations prices b hb]
    exact ⟨b, rfl, hle⟩
  · intro c hc
    cases hdp : (dpPair (mget prices) (stations.length - 1)).1 with
    | none =>
      rw [find_eq_of_dp_none stations prices hdp] at hc
      exact Option.noConfusion hc
    | some b =>
      rw [find_eq_of_dp_some stations prices b hdp] at hc
      have hbc : b = c := Option.some.inj hc
      subst hbc
      rw [find_eq_of_dp_some stations prices b hdp]
      have := buildPath_correct (mget prices) stations.length (stations.length - 1)
        (by omega) b hdp
      exact ⟨this.1, this.2⟩

/-- Witness for C1: two stations with the single fare 3 for the direct segment. -/
theorem find_cheapest_route_correct_witness :
    2 ≤ (["A", "B"] : List String).length ∧
    ((∀ p, IsTicketChain (mget [[none, some 3], [none, none]])
        (["A", "B"] : List String).length p →
      ∃ c, (find_cheapest_route ["A", "B"] [[none, some 3], [none, none]]).1 = some c ∧
        c ≤ chainCost (mget [[none, some 3], [none, none]]) p) ∧
    (∀ c, (find_cheapest_route ["A", "B"] [[none, some 3], [none, none]]).1 = some c →
      IsTicketChain (mget [[none, some 3], [none, none]])
        (["A", "B"] : List String).length
        (find_cheapest_route ["A", "B"] [[none, some 3], [none, none]]).2 ∧
      chainCost (mget [[none, some 3], [none, none]])
        (find_cheapest_route ["A", "B"] [[none, some 3], [none, none]]).2 = c)) :=
  ⟨by decide, find_cheapest_route_correct ["A", "B"] [[none, some 3], [none, none]] (by decide)⟩

/-- **C2.** Whenever the direct fare `prices[0][n-1]` is defined, the solver's
`min_cost` is finite and at most that fare. -/
theorem min_cost_le_direct (stations : List String) (prices : List (List (Option ℚ)))
    (hn : 2 ≤ stations.length) (fr : ℚ)
    (hf : mget prices 0 (stations.length - 1) = some fr) :
    ∃ c, (find_cheapest_route stations prices).1 = some c ∧ c ≤ fr := by
  have hchain : ChainFrom (mget prices) 0 [(0, stations.length - 1)] (stations.length - 1) :=
    (chainFrom_cons (mget prices) 0 0 (stations.length - 1) [] (stations.length - 1)).mpr
      ⟨rfl, by omega, by simp [hf], rfl⟩
  obtain ⟨b, hb, hle⟩ := dp_le (mget prices) (stations.length - 1) _ hchain
  rw [find_eq_of_dp_some stations prices b hb]
  refine ⟨b, rfl, le_trans hle ?_⟩
  simp [chainCost, hf]

/-- Witness for C2: two stations, direct fare 5. -/
theorem min_cost_le_direct_witness :
    (2 ≤ (["X", "Y"] : List String).length ∧
      mget [[none, some 5], [none, none]] 0 ((["X", "Y"] : List String).length - 1) =
        some 5) ∧
    ∃ c, (find_cheapest_route ["X", "Y"] [[none, some 5], [none, none]]).1 = some c ∧
      c ≤ 5 :=
  ⟨⟨by decide, rfl⟩, min_cost_le_direct ["X", "Y"] [[none, some 5], [none, none]]
    (by decide) 5 rfl⟩

/-- **C3.** When no chain of defined-fare segments connects station `0` to
station `n - 1`, the solver returns the unreachable sentinel and the empty
path — the total embedding cannot fail abnormally, and `analyze_tickets`
takes its no-valid-route branch instead of reporting a finite cost. -/
theorem no_route_reported (stations : List String) (prices : List (List (Option ℚ)))
    (hn : 2 ≤ stations.length)
    (hnc : ¬∃ p, IsTicketChain (mget prices) stations.length p) :
    find_cheapest_route stations prices = (none, []) ∧
      analyze_reports_no_route stations prices = true := by
  have hdp : (dpPair (mget prices) (stations.length - 1)).1 = none :=
    (dp_none_iff_no_chain (mget prices) (stations.length - 1)).mpr hnc
  have hfind := find_eq_of_dp_none stations prices hdp
  refine ⟨hfind, ?_⟩
  unfold analyze_reports_no_route
  rw [hfind]
  rfl

/-- Witness for C3: two stations, no fares at all. -/
theorem no_route_reported_witness :
    (2 ≤ (["P", "Q"] : List String).length ∧
      ¬∃ p, IsTicketChain (mget [[none, none], [none, none]])
        (["P", "Q"] : List String).length p) ∧
    find_cheapest_route ["P", "Q"] [[none, none], [none, none]] = (none, []) ∧
      analyze_reports_no_route ["P", "Q"] [[none, none], [none, none]] = true := by
  have hmn : ∀ x y, mget [[none, none], [none, none]] x y = (none : Option ℚ) := by
    intro x y
    rcases x with _ | _ | x <;> rcases y with _ | _ | y <;> rfl
  have hnc : ¬∃ p, IsTicketChain (mget [[none, none], [none, none]])
      (["P", "Q"] : List String).length p := by
    rintro ⟨p, hp⟩
    cases p with
    | nil =>
      have h01 : (0 : ℕ) = 1 := hp
      exact absurd h01 (by decide)
    | cons e rest =>
      obtain ⟨x, y⟩ := e
      obtain ⟨_, _, hsome, _⟩ :=
        (chainFrom_cons (mget [[none, none], [none, none]]) 0 x y rest 1).mp hp
      rw [hmn x y] at hsome
      exact Bool.noConfusion hsome
  exact ⟨⟨by decide, hnc⟩,
    no_route_reported ["P", "Q"] [[none, none], [none, none]] (by decide) hnc⟩

/-- **C6.** In `find_cheapest_route`, whenever a predecessor is recorded for
station `i`, it attains the minimal candidate cost `dp[j] + prices[j][i]` over
all eligible predecessors, and every strictly smaller index has a strictly
larger (or undefined) candidate — so among equal-cost minimisers the smallest
index, the first met by the ascending scan, is the one recorded, and the
reconstructed path is a deterministic function of the inputs. -/
theorem prev_smallest_argmin (f : ℕ → ℕ → Option ℚ) (i j : ℕ)
    (h : (dpPair f i).2 = some j) :
    ∃ b, (dpPair f i).1 = some b ∧ j < i ∧ candCost f i j = some b ∧
      (∀ j' < i, ∀ c, candCost f i j' = some c → b ≤ c) ∧
      (∀ j' < j, ∀ c, candCost f i j' = some c → b < c) := by
  cases i with
  | zero =>
    rw [dpPair_zero] at h
    exact Option.noConfusion h
  | succ i => exact dp_snd_some_spec f i j h

/-- Witness for C6: the tie matrix `tiePrices` — station 2 costs 5 both via
the direct fare and via station 1; the recorded predecessor is 0. -/
theorem prev_smallest_argmin_witness :
    (dpPair (mget tiePrices) 2).2 = some 0 ∧
    ∃ b, (dpPair (mget tiePrices) 2).1 = some b ∧ 0 < 2 ∧
      candCost (mget tiePrices) 2 0 = some b ∧
      (∀ j' < 2, ∀ c, candCost (mget tiePrices) 2 j' = some c → b ≤ c) ∧
      (∀ j' < 0, ∀ c, candCost (mget tiePrices) 2 j' = some c → b < c) :=
  ⟨by with_unfolding_all decide,
    prev_smallest_argmin (mget tiePrices) 2 0 (by with_unfolding_all decide)⟩

/-! ## Stripping: idempotence and commutation with comma normalisation -/

theorem dropWhile_dropWhile_eq (p : Char → Bool) (l : List Char) :
    (l.dropWhile p).dropWhile p = l.dropWhile p := by
  induction l with
  | nil => rfl
  | cons a l ih =>
    by_cases h : p a = true
    · rw [List.dropWhile_cons_of_pos h]
      exact ih
    · rw [List.dropWhile_cons_of_neg h, List.dropWhile_cons_of_neg h]

theorem head_false_of_dropWhile_self (p : Char → Bool) (a : Char) (l : List Char)
    (h : List.dropWhile p (a :: l) = a :: l) : p a = false := by
  by_cases pa : p a = true
  · rw [List.dropWhile_cons_of_pos pa] at h
    have hlen := (List.dropWhile_sublist (l := l) p).length_le
    have := congrArg List.length h
    simp at this
    omega
  · simp at pa
    exact pa

theorem stripChars_stripChars (l : List Char) :
    stripChars (stripChars l) = stripChars l := by
  unfold stripChars
  set m := l.dropWhile isPySpace with hm
  have hmm : m.dropWhile isPySpace = m := by
    rw [hm]
    exact dropWhile_dropWhile_eq _ _
  set s := (m.reverse.dropWhile isPySpace).reverse with hs
  have h1 : s.dropWhile isPySpace = s := by
    cases hmc : m with
    | nil =>
      rw [hs, hmc]
      rfl
    | cons a m' =>
      have hpa : isPySpace a = false :=
        head_false_of_dropWhile_self isPySpace a m' (by rw [← hmc]; exact hmm)
      have hdec : s ++ (m.reverse.takeWhile isPySpace).reverse = m := by
        rw [hs, ← List.reverse_append, List.takeWhile_append_dropWhile, List.reverse_reverse]
      cases hsc : s with
      | nil => rfl
      | cons b s' =>
        have hba : b = a := by
          rw [hsc, hmc] at hdec
          exact (List.cons.inj hdec).1
        rw [hba, List.dropWhile_cons_of_neg (by simp [hpa])]
  have h2 : s.reverse.dropWhile isPySpace = s.reverse := by
    rw [hs, List.reverse_reverse]
    exact dropWhile_dropWhile_eq _ _
  rw [h1, h2, List.reverse_reverse]

theorem isPySpace_commaFn (c : Char) :
    isPySpace (commaFn c) = isPySpace c := by
  unfold commaFn
  by_cases h : c = ','
  · subst h
    decide
  · rw [if_neg h]

theorem dropWhile_map_commaFn (l : List Char) :
    (l.map commaFn).dropWhile isPySpace =
      (l.dropWhile isPySpace).map commaFn := by
  induction l with
  | nil => rfl
  | cons a l ih =>
    by_cases h : isPySpace a = true
    · rw [List.map_cons, List.dropWhile_cons_of_pos (by rw [isPySpace_commaFn]; exact h),
        List.dropWhile_cons_of_pos h]
      exact ih
    · rw [List.map_cons, List.dropWhile_cons_of_neg (by rw [isPySpace_commaFn]; exact h),
        List.dropWhile_cons_of_neg h, List.map_cons]

theorem stripChars_map_commaFn (l : List Char) :
    stripChars (l.map commaFn) = (stripChars l).map commaFn := by
  unfold stripChars
  rw [dropWhile_map_commaFn, ← List.map_reverse, dropWhile_map_commaFn, List.map_reverse]

theorem parseFloatChars_congr (l1 l2 : List Char) (h : stripChars l1 = stripChars l2) :
    parseFloatChars l1 = parseFloatChars l2 := by
  unfold parseFloatChars
  rw [h]

theorem pyFloat_commaToDot_strip (cell : String) :
    pyFloat (commaToDot (pyStrip cell)) = pyFloat (commaToDot cell) := by
  unfold pyFloat commaToDot pyStrip
  apply parseFloatChars_congr
  show stripChars ((stripChars cell.data).map _) = stripChars (cell.data.map _)
  rw [stripChars_map_commaFn, stripChars_map_commaFn, stripChars_stripChars]

/-! ## Ingestion structure -/

theorem parse_ok_components (r0 r1 : List String) (rest : List (List String)) :
    parse_tsv_file (r0 :: r1 :: rest) = Except.ok
      (headerCells r1, headerCells r0,
        (List.range (headerCells r1).length).map fun i =>
          (List.range (headerCells r1).length).map fun j =>
            if i + 2 < (r0 :: r1 :: rest).length ∧ i ≤ j then
              (if 2 + j < ((r0 :: r1 :: rest).getD (i + 2) []).length
               then cellParse (((r0 :: r1 :: rest).getD (i + 2) []).getD (2 + j) "")
               else none)
            else none) := rfl

theorem getD_map_range {α : Type} (n i : ℕ) (g : ℕ → α) (d : α) :
    ((List.range n).map g).getD i d = if i < n then g i else d := by
  by_cases h : i < n
  · rw [if_pos h, List.getD_eq_getElem _ d (by simpa using h)]
    simp
  · rw [if_neg h, List.getD_eq_default]
    simpa using h

theorem mget_map_range (n : ℕ) (g : ℕ → ℕ → Option ℚ) (i j : ℕ) :
    mget ((List.range n).map fun i' => (List.range n).map fun j' => g i' j') i j =
      if i < n then (if j < n then g i j else none) else none := by
  unfold mget
  rw [getD_map_range]
  by_cases h : i < n
  · rw [if_pos h, if_pos h, getD_map_range]
  · rw [if_neg h, if_neg h]
    rfl

/-- **C5.** A fare cell yields a defined fare only if, after comma
normalisation, it parses as a number and is not empty, `"?"`, or `"0"`; in
every other case the matrix entry is `none`, and ingestion itself cannot fail
on cell content: any artifact with two header rows is accepted. -/
theorem cell_guard_characterisation :
    (∀ cell : String,
      ((cellParse cell).isSome = true →
        (pyFloat (commaToDot cell)).isSome = true ∧
          cell ≠ "" ∧ cell ≠ "?" ∧ cell ≠ "0") ∧
      (¬((pyFloat (commaToDot cell)).isSome = true ∧
          cell ≠ "" ∧ cell ≠ "?" ∧ cell ≠ "0") →
        cellParse cell = none)) ∧
    (∀ (r0 r1 : List String) (rest : List (List String)),
      ∃ v, parse_tsv_file (r0 :: r1 :: rest) = Except.ok v) := by
  constructor
  · intro cell
    constructor
    · intro h
      by_cases hg : pyStrip cell ≠ "" ∧ pyStrip cell ≠ "?" ∧ pyStrip cell ≠ "0"
      · have hc : cellParse cell = pyFloat (commaToDot (pyStrip cell)) := by
          show (if pyStrip cell ≠ "" ∧ pyStrip cell ≠ "?" ∧ pyStrip cell ≠ "0"
            then pyFloat (commaToDot (pyStrip cell)) else none) = _
          rw [if_pos hg]
        rw [hc, pyFloat_commaToDot_strip] at h
        refine ⟨h, ?_, ?_, ?_⟩
        · intro he
          exact hg.1 (by rw [he]; decide)
        · intro he
          exact hg.2.1 (by rw [he]; decide)
        · intro he
          exact hg.2.2 (by rw [he]; decide)
      · have hc : cellParse cell = none := by
          show (if pyStrip cell ≠ "" ∧ pyStrip cell ≠ "?" ∧ pyStrip cell ≠ "0"
            then pyFloat (commaToDot (pyStrip cell)) else none) = _
          rw [if_neg hg]
        rw [hc] at h
        exact Bool.noConfusion h
    · intro hx
      by_cases hg : pyStrip cell ≠ "" ∧ pyStrip cell ≠ "?" ∧ pyStrip cell ≠ "0"
      · have h1 : cell ≠ "" := fun he => hg.1 (by rw [he]; decide)
        have h2 : cell ≠ "?" := fun he => hg.2.1 (by rw [he]; decide)
        have h3 : cell ≠ "0" := fun he => hg.2.2 (by rw [he]; decide)
        have hc : cellParse cell = pyFloat (commaToDot (pyStrip cell)) := by
          show (if pyStrip cell ≠ "" ∧ pyStrip cell ≠ "?" ∧ pyStrip cell ≠ "0"
            then pyFloat (commaToDot (pyStrip cell)) else none) = _
          rw [if_pos hg]
        rw [hc, pyFloat_commaToDot_strip]
        cases hpf : pyFloat (commaToDot cell) with
        | none => rfl
        | some v => exact absurd ⟨by rw [hpf]; rfl, h1, h2, h3⟩ hx
      · show (if pyStrip cell ≠ "" ∧ pyStrip cell ≠ "?" ∧ pyStrip cell ≠ "0"
          then pyFloat (commaToDot (pyStrip cell)) else none) = _
        rw [if_neg hg]
  · intro r0 r1 rest
    exact ⟨_, rfl⟩

/-- Witness for C5: the placeholder cell `"?"` maps to no fare, and a minimal
two-row artifact is accepted. -/
theorem cell_guard_characterisation_witness :
    cellParse "?" = none ∧
      ∃ v, parse_tsv_file [[], []] = Except.ok v :=
  ⟨(cell_guard_characterisation.1 "?").2 (by decide),
    cell_guard_characterisation.2 [] [] []⟩

/-- **C7.** An artifact with two header rows is always accepted, and every
matrix entry whose fare cell is absent — the price row is missing entirely or
is too short to reach column `2 + j` — is `none`; all indexing is total. -/
theorem short_rows_safe (r0 r1 : List String) (rest : List (List String)) :
    ∃ st tm pr, parse_tsv_file (r0 :: r1 :: rest) = Except.ok (st, tm, pr) ∧
      ∀ i j, ((r0 :: r1 :: rest).length ≤ i + 2 ∨
          ((r0 :: r1 :: rest).getD (i + 2) []).length ≤ 2 + j) →
        mget pr i j = none := by
  refine ⟨_, _, _, parse_ok_components r0 r1 rest, ?_⟩
  intro i j habs
  rw [mget_map_range]
  by_cases hi : i < (headerCells r1).length
  · rw [if_pos hi]
    by_cases hj : j < (headerCells r1).length
    · rw [if_pos hj]
      by_cases hg : i + 2 < (r0 :: r1 :: rest).length ∧ i ≤ j
      · rw [if_pos hg]
        rcases habs with h | h
        · exact absurd hg.1 (by omega)
        · rw [if_neg (by omega)]
      · rw [if_neg hg]
    · rw [if_neg hj]
  · rw [if_neg hi]

/-- Witness for C7: two stations but a single, short price row — the absent
cells (missing trailing column, missing row) are all `none`. -/
theorem short_rows_safe_witness :
    ∃ st tm pr,
      parse_tsv_file [["d", "t", "10:00", "11:00"], ["", "", "A", "B"],
        ["10:00", "A", "0"]] = Except.ok (st, tm, pr) ∧
      mget pr 0 1 = none ∧ mget pr 1 1 = none := by
  obtain ⟨st, tm, pr, hok, h⟩ :=
    short_rows_safe ["d", "t", "10:00", "11:00"] ["", "", "A", "B"] [["10:00", "A", "0"]]
  exact ⟨st, tm, pr, hok, h 0 1 (Or.inr (by decide)), h 1 1 (Or.inl (by decide))⟩

/-- **C8.** An artifact with fewer than two header rows is rejected with
`MalformedInput`; no station list, time list, or matrix is returned. -/
theorem malformed_header (rows : List (List String)) (h : rows.length < 2) :
    parse_tsv_file rows = Except.error ParseError.MalformedInput := by
  cases rows with
  | nil => rfl
  | cons r0 rows' =>
    cases rows' with
    | nil => rfl
    | cons r1 rest =>
      simp [List.length_cons] at h
      omega

/-- Witness for C8: the empty artifact. -/
theorem malformed_header_witness :
    ([] : List (List String)).length < 2 ∧
      parse_tsv_file [] = Except.error ParseError.MalformedInput :=
  ⟨by decide, malformed_header [] (by decide)⟩

/-- **C9 counterexample.** An accepted artifact whose first header row has one
nonempty payload cell while the second has two: the returned time list has
length 1, the station list length 2 — the ingestor does not enforce the
claimed alignment. -/
theorem time_station_mismatch :
    parse_tsv_file [["d", "t", "10:00"], ["", "", "A", "B"]] =
      Except.ok (["A", "B"], ["10:00"], [[none, none], [none, none]]) ∧
    (["10:00"] : List String).length ≠ (["A", "B"] : List String).length :=
  ⟨rfl, by decide⟩

/-- **C9 amended.** The time list returned by the ingestor is exactly the
nonempty stripped payload of header row 0 and the station list that of header
row 1; their lengths agree precisely when those two payloads have equally many
nonempty cells (as in every artifact produced by `write_tsv_rows` with aligned
inputs) — equality is not checked by ingestion itself. -/
theorem time_station_alignment (rows : List (List String))
    (st tm : List String) (pr : List (List (Option ℚ)))
    (hok : parse_tsv_file rows = Except.ok (st, tm, pr)) :
    tm = headerCells (rows.getD 0 []) ∧ st = headerCells (rows.getD 1 []) ∧
      (tm.length = st.length ↔
        (headerCells (rows.getD 0 [])).length =
          (headerCells (rows.getD 1 [])).length) := by
  cases rows with
  | nil => exact Except.noConfusion hok
  | cons r0 rows' =>
    cases rows' with
    | nil => exact Except.noConfusion hok
    | cons r1 rest =>
      have h := parse_ok_components r0 r1 rest
      rw [hok] at h
      have h' := Except.ok.inj h
      have hst : st = headerCells r1 := congrArg Prod.fst h'
      have htm : tm = headerCells r0 := congrArg Prod.fst (congrArg Prod.snd h')
      refine ⟨htm, hst, ?_⟩
      rw [htm, hst]
      exact Iff.rfl

/-- Witness for C9's amended statement, at a one-station artifact. -/
theorem time_station_alignment_witness :
    (["10:00"] : List String) = headerCells (([["d", "t", "10:00"],
        ["", "", "S"]] : List (List String)).getD 0 []) ∧
    (["S"] : List String) = headerCells (([["d", "t", "10:00"],
        ["", "", "S"]] : List (List String)).getD 1 []) ∧
    ((["10:00"] : List String).length = (["S"] : List String).length ↔
      (headerCells (([["d", "t", "10:00"], ["", "", "S"]] :
        List (List String)).getD 0 [])).length =
      (headerCells (([["d", "t", "10:00"], ["", "", "S"]] :
        List (List String)).getD 1 [])).length) :=
  time_station_alignment [["d", "t", "10:00"], ["", "", "S"]]
    ["S"] ["10:00"] [[none]] rfl

/-- **C10.** Every accepted artifact yields an n×n fare matrix, n the station
count, whose strict lower triangle is entirely `none`: no fare is ever
populated against the travel direction. -/
theorem matrix_shape_lower_none (rows : List (List String))
    (st tm : List String) (pr : List (List (Option ℚ)))
    (hok : parse_tsv_file rows = Except.ok (st, tm, pr)) :
    pr.length = st.length ∧ (∀ row ∈ pr, row.length = st.length) ∧
      ∀ i j, j < i → mget pr i j = none := by
  cases rows with
  | nil => exact Except.noConfusion hok
  | cons r0 rows' =>
    cases rows' with
    | nil => exact Except.noConfusion hok
    | cons r1 rest =>
      have h := parse_ok_components r0 r1 rest
      rw [hok] at h
      have h' := Except.ok.inj h
      have hst : st = headerCells r1 := congrArg Prod.fst h'
      have hpr : pr = (List.range (headerCells r1).length).map fun i =>
          (List.range (headerCells r1).length).map fun j =>
            if i + 2 < (r0 :: r1 :: rest).length ∧ i ≤ j then
              (if 2 + j < ((r0 :: r1 :: rest).getD (i + 2) []).length
               then cellParse (((r0 :: r1 :: rest).getD (i + 2) []).getD (2 + j) "")
               else none)
            else none := congrArg Prod.snd (congrArg Prod.snd h')
      subst hst
      refine ⟨by rw [hpr]; simp, ?_, ?_⟩
      · intro row hrow
        rw [hpr] at hrow
        obtain ⟨i, _, hrow⟩ := List.mem_map.mp hrow
        rw [← hrow]
        simp
      · intro i j hji
        rw [hpr, mget_map_range]
        by_cases hi : i < (headerCells r1).length
        · rw [if_pos hi]
          by_cases hj : j < (headerCells r1).length
          · rw [if_pos hj, if_neg (by omega)]
          · rw [if_neg hj]
        · rw [if_neg hi]

/-- Witness for C10: a three-station artifact with a full fare row for
station 0. -/
theorem matrix_shape_lower_none_witness :
    ([[none, some 2, some 3], [none, none, none], [none, none, none]] :
        List (List (Option ℚ))).length =
      (["A", "B", "C"] : List String).length ∧
    (∀ row ∈ ([[none, some 2, some 3], [none, none, none], [none, none, none]] :
        List (List (Option ℚ))), row.length = (["A", "B", "C"] : List String).length) ∧
    ∀ i j, j < i →
      mget [[none, some 2, some 3], [none, none, none], [none, none, none]] i j = none :=
  matrix_shape_lower_none
    [["d", "t", "09:00", "10:00", "11:00"], ["", "", "A", "B", "C"],
      ["09:00", "A", "0", "2,00", "3,00"]]
    ["A", "B", "C"] ["09:00", "10:00", "11:00"]
    [[none, some 2, some 3], [none, none, none], [none, none, none]]
    (by with_unfolding_all rfl)

/-! ## Decimal rendering: digit facts -/

theorem digitOf_isDigit (d : ℕ) (h : d < 10) : (digitOf d).isDigit = true := by
  interval_cases d <;> decide

theorem digitVal_digitOf (d : ℕ) (h : d < 10) : digitVal (digitOf d) = d := by
  interval_cases d <;> decide

theorem isDigit_ne_comma (c : Char) (h : c.isDigit = true) : c ≠ ',' :=
  fun he => absurd (he ▸ h) (by decide)

theorem isDigit_ne_dot (c : Char) (h : c.isDigit = true) : c ≠ '.' :=
  fun he => absurd (he ▸ h) (by decide)

theorem isDigit_ne_minus (c : Char) (h : c.isDigit = true) : c ≠ '-' :=
  fun he => absurd (he ▸ h) (by decide)

theorem isDigit_ne_plus (c : Char) (h : c.isDigit = true) : c ≠ '+' :=
  fun he => absurd (he ▸ h) (by decide)

theorem isPySpace_false_of_isDigit (c : Char) (h : c.isDigit = true) :
    isPySpace c = false := by
  have h1 : c ≠ ' ' := fun he => absurd (he ▸ h) (by decide)
  have h2 : c ≠ '\t' := fun he => absurd (he ▸ h) (by decide)
  have h3 : c ≠ '\n' := fun he => absurd (he ▸ h) (by decide)
  have h4 : c ≠ '\r' := fun he => absurd (he ▸ h) (by decide)
  have h5 : c ≠ '\x0b' := fun he => absurd (he ▸ h) (by decide)
  have h6 : c ≠ '\x0c' := fun he => absurd (he ▸ h) (by decide)
  simp [isPySpace, h1, h2, h3, h4, h5, h6]

theorem natToDigits_ne_nil (n : ℕ) : natToDigits n ≠ [] := by
  rw [natToDigits]
  split
  · simp
  · simp

theorem natToDigits_all_digit (n : ℕ) : ∀ c ∈ natToDigits n, c.isDigit = true := by
  induction n using Nat.strong_induction_on with
  | _ n ih =>
    rw [natToDigits]
    split
    · intro c hc
      rw [List.mem_singleton.mp hc]
      exact digitOf_isDigit n (by omega)
    · intro c hc
      rcases List.mem_append.mp hc with hc | hc
      · exact ih (n / 10) (Nat.div_lt_self (by omega) (by omega)) c hc
      · rw [List.mem_singleton.mp hc]
        exact digitOf_isDigit (n % 10) (Nat.mod_lt n (by omega))

theorem digitsToNat_append_singleton (l : List Char) (c : Char) :
    digitsToNat (l ++ [c]) = 10 * digitsToNat l + digitVal c := by
  unfold digitsToNat
  rw [List.foldl_append]
  rfl

theorem digitsToNat_natToDigits (n : ℕ) : digitsToNat (natToDigits n) = n := by
  induction n using Nat.strong_induction_on with
  | _ n ih =>
    rw [natToDigits]
    split
    · have hd := digitVal_digitOf n (by omega)
      simp [digitsToNat, List.foldl]
      omega
    · rw [digitsToNat_append_singleton,
        ih (n / 10) (Nat.div_lt_self (by omega) (by omega)),
        digitVal_digitOf (n % 10) (Nat.mod_lt n (by omega))]
      omega

/-! ## takeWhile/dropWhile over all-satisfying blocks, strip of clean lists -/

theorem takeWhile_append_all (p : Char → Bool) (l1 l2 : List Char)
    (h : ∀ c ∈ l1, p c = true) :
    (l1 ++ l2).takeWhile p = l1 ++ l2.takeWhile p := by
  induction l1 with
  | nil => rfl
  | cons a l1 ih =>
    rw [List.cons_append, List.takeWhile_cons_of_pos (h a (List.mem_cons_self a l1)),
      ih (fun c hc => h c (List.mem_cons_of_mem a hc)), List.cons_append]

theorem dropWhile_append_all (p : Char → Bool) (l1 l2 : List Char)
    (h : ∀ c ∈ l1, p c = true) :
    (l1 ++ l2).dropWhile p = l2.dropWhile p := by
  induction l1 with
  | nil => rfl
  | cons a l1 ih =>
    rw [List.cons_append, List.dropWhile_cons_of_pos (h a (List.mem_cons_self a l1))]
    exact ih fun c hc => h c (List.mem_cons_of_mem a hc)

theorem dropWhile_eq_self_of_head (p : Char → Bool) (l : List Char)
    (h : ∀ c ∈ l, p c = false) : l.dropWhile p = l := by
  cases l with
  | nil => rfl
  | cons a l =>
    exact List.dropWhile_cons_of_neg (by simp [h a (List.mem_cons_self a l)])

theorem stripChars_eq_self (l : List Char) (h : ∀ c ∈ l, isPySpace c = false) :
    stripChars l = l := by
  unfold stripChars
  rw [dropWhile_eq_self_of_head isPySpace l h,
    dropWhile_eq_self_of_head isPySpace l.reverse
      (fun c hc => h c (List.mem_reverse.mp hc)),
    List.reverse_reverse]

theorem parseFloatChars_digits_dot (c : Char) (ip frac : List Char)
    (hip : ∀ x ∈ c :: ip, x.isDigit = true) (hfr : ∀ x ∈ frac, x.isDigit = true) :
    parseFloatChars ((c :: ip) ++ '.' :: frac) =
      some ((digitsToNat (c :: ip) : ℚ) +
        (digitsToNat frac : ℚ) / (10 : ℚ) ^ frac.length) := by
  have hcd : c.isDigit = true := hip c (List.mem_cons_self c ip)
  have hstrip : stripChars ((c :: ip) ++ '.' :: frac) = (c :: ip) ++ '.' :: frac := by
    apply stripChars_eq_self
    intro x hx
    rcases List.mem_append.mp hx with hx | hx
    · exact isPySpace_false_of_isDigit x (hip x hx)
    · rcases List.mem_cons.mp hx with rfl | hx
      · decide
      · exact isPySpace_false_of_isDigit x (hfr x hx)
  have htake : ((c :: ip) ++ '.' :: frac).takeWhile Char.isDigit = c :: ip := by
    rw [takeWhile_append_all Char.isDigit (c :: ip) ('.' :: frac) hip,
      List.takeWhile_cons_of_neg (by decide), List.append_nil]
  have hdrop : ((c :: ip) ++ '.' :: frac).dropWhile Char.isDigit = '.' :: frac := by
    rw [dropWhile_append_all Char.isDigit (c :: ip) ('.' :: frac) hip,
      List.dropWhile_cons_of_neg (by decide)]
  simp only [parseFloatChars]
  rw [hstrip]
  rw [show ((c :: ip) ++ '.' :: frac).head? = some c from rfl]
  rw [if_neg (show ¬(some c = some '-') by simp [isDigit_ne_minus c hcd]),
    if_neg (show ¬(some c = some '+') by simp [isDigit_ne_plus c hcd])]
  simp only [htake, hdrop]
  rw [if_neg (show ¬('.' :: frac = []) by simp)]
  rw [if_pos (show ('.' :: frac).head? = some '.' from rfl)]
  simp only [List.tail_cons]
  rw [if_neg (show ¬((c :: ip).isEmpty && frac.isEmpty) = true by simp [List.isEmpty])]
  rw [if_pos (List.all_eq_true.mpr hfr)]
  rw [one_mul]

theorem parseFloatChars_neg_digits_dot (c : Char) (ip frac : List Char)
    (hip : ∀ x ∈ c :: ip, x.isDigit = true) (hfr : ∀ x ∈ frac, x.isDigit = true) :
    parseFloatChars ('-' :: ((c :: ip) ++ '.' :: frac)) =
      some (-((digitsToNat (c :: ip) : ℚ) +
        (digitsToNat frac : ℚ) / (10 : ℚ) ^ frac.length)) := by
  have hcd : c.isDigit = true := hip c (List.mem_cons_self c ip)
  have hstrip : stripChars ('-' :: ((c :: ip) ++ '.' :: frac)) =
      '-' :: ((c :: ip) ++ '.' :: frac) := by
    apply stripChars_eq_self
    intro x hx
    rcases List.mem_cons.mp hx with rfl | hx
    · decide
    rcases List.mem_append.mp hx with hx | hx
    · exact isPySpace_false_of_isDigit x (hip x hx)
    · rcases List.mem_cons.mp hx with rfl | hx
      · decide
      · exact isPySpace_false_of_isDigit x (hfr x hx)
  have htake : ((c :: ip) ++ '.' :: frac).takeWhile Char.isDigit = c :: ip := by
    rw [takeWhile_append_all Char.isDigit (c :: ip) ('.' :: frac) hip,
      List.takeWhile_cons_of_neg (by decide), List.append_nil]
  have hdrop : ((c :: ip) ++ '.' :: frac).dropWhile Char.isDigit = '.' :: frac := by
    rw [dropWhile_append_all Char.isDigit (c :: ip) ('.' :: frac) hip,
      List.dropWhile_cons_of_neg (by decide)]
  simp only [parseFloatChars]
  rw [hstrip]
  rw [if_pos (show ('-' :: ((c :: ip) ++ '.' :: frac)).head? = some '-' from rfl)]
  simp only [List.tail_cons, htake, hdrop]
  rw [if_neg (show ¬('.' :: frac = []) by simp)]
  rw [if_pos (show ('.' :: frac).head? = some '.' from rfl)]
  rw [if_neg (show ¬((c :: ip).isEmpty && frac.isEmpty) = true by simp [List.isEmpty])]
  rw [if_pos (List.all_eq_true.mpr hfr)]
  rw [neg_one_mul]

theorem map_commaFn_digits (l : List Char) (h : ∀ c ∈ l, c.isDigit = true) :
    l.map commaFn = l := by
  induction l with
  | nil => rfl
  | cons a l ih =>
    have ha : commaFn a = a := by
      unfold commaFn
      rw [if_neg (isDigit_ne_comma a (h a (List.mem_cons_self a l)))]
    rw [List.map_cons, ha, ih fun c hc => h c (List.mem_cons_of_mem a hc)]

theorem commaFn_centsRender (m : ℕ) :
    (centsRender m).map commaFn =
      natToDigits (m / 100) ++ '.' :: digitOf (m % 100 / 10) :: [digitOf (m % 10)] := by
  unfold centsRender
  rw [List.map_append, List.map_append,
    map_commaFn_digits (natToDigits (m / 100)) (natToDigits_all_digit (m / 100)),
    map_commaFn_digits [digitOf (m % 100 / 10), digitOf (m % 10)] ?hd]
  case hd =>
    intro x hx
    rcases List.mem_cons.mp hx with rfl | hx
    · exact digitOf_isDigit _ (by omega)
    · rw [List.mem_singleton.mp hx]
      exact digitOf_isDigit _ (Nat.mod_lt _ (by omega))
  rw [show List.map commaFn [','] = ['.'] from rfl, List.append_assoc]
  rfl

theorem digitsToNat_pair (a b : ℕ) (ha : a < 10) (hb : b < 10) :
    digitsToNat [digitOf a, digitOf b] = 10 * a + b := by
  have h1 := digitVal_digitOf a ha
  have h2 := digitVal_digitOf b hb
  simp [digitsToNat, List.foldl]
  omega

theorem parseFloat_centsRender (m : ℕ) :
    parseFloatChars ((centsRender m).map commaFn) = some ((m : ℚ) / 100) := by
  rw [commaFn_centsRender]
  obtain ⟨c, ip, hcip⟩ : ∃ c ip, natToDigits (m / 100) = c :: ip := by
    cases h : natToDigits (m / 100) with
    | nil => exact absurd h (natToDigits_ne_nil _)
    | cons c ip => exact ⟨c, ip, rfl⟩
  rw [hcip]
  rw [parseFloatChars_digits_dot c ip (digitOf (m % 100 / 10) :: [digitOf (m % 10)])
    (by rw [← hcip]; exact natToDigits_all_digit _)
    (by intro x hx
        rcases List.mem_cons.mp hx with rfl | hx
        · exact digitOf_isDigit _ (by omega)
        · rw [List.mem_singleton.mp hx]
          exact digitOf_isDigit _ (Nat.mod_lt _ (by omega)))]
  rw [← hcip, digitsToNat_natToDigits,
    digitsToNat_pair (m % 100 / 10) (m % 10) (by omega) (Nat.mod_lt _ (by omega))]
  have hm : 10 * (m % 100 / 10) + m % 10 = m % 100 := by omega
  rw [hm]
  have key : (m : ℚ) = 100 * ((m / 100 : ℕ) : ℚ) + ((m % 100 : ℕ) : ℚ) := by
    exact_mod_cast (Nat.div_add_mod m 100).symm
  rw [key]
  norm_num [List.length]
  ring

theorem parseFloat_neg_centsRender (m : ℕ) :
    parseFloatChars ('-' :: (centsRender m).map commaFn) = some (-((m : ℚ) / 100)) := by
  rw [commaFn_centsRender]
  obtain ⟨c, ip, hcip⟩ : ∃ c ip, natToDigits (m / 100) = c :: ip := by
    cases h : natToDigits (m / 100) with
    | nil => exact absurd h (natToDigits_ne_nil _)
    | cons c ip => exact ⟨c, ip, rfl⟩
  rw [hcip]
  rw [parseFloatChars_neg_digits_dot c ip (digitOf (m % 100 / 10) :: [digitOf (m % 10)])
    (by rw [← hcip]; exact natToDigits_all_digit _)
    (by intro x hx
        rcases List.mem_cons.mp hx with rfl | hx
        · exact digitOf_isDigit _ (by omega)
        · rw [List.mem_singleton.mp hx]
          exact digitOf_isDigit _ (Nat.mod_lt _ (by omega)))]
  rw [← hcip, digitsToNat_natToDigits,
    digitsToNat_pair (m % 100 / 10) (m % 10) (by omega) (Nat.mod_lt _ (by omega))]
  have hm : 10 * (m % 100 / 10) + m % 10 = m % 100 := by omega
  rw [hm]
  have key : (m : ℚ) = 100 * ((m / 100 : ℕ) : ℚ) + ((m % 100 : ℕ) : ℚ) := by
    exact_mod_cast (Nat.div_add_mod m 100).symm
  rw [key]
  norm_num [List.length]
  ring

theorem centsRender_no_ws (m : ℕ) : ∀ x ∈ centsRender m, isPySpace x = false := by
  intro x hx
  unfold centsRender at hx
  rcases List.mem_append.mp hx with hx | hx
  · rcases List.mem_append.mp hx with hx | hx
    · exact isPySpace_false_of_isDigit x (natToDigits_all_digit _ x hx)
    · rw [List.mem_singleton.mp hx]
      decide
  · rcases List.mem_cons.mp hx with rfl | hx
    · exact isPySpace_false_of_isDigit _ (digitOf_isDigit _ (by omega))
    · rw [List.mem_singleton.mp hx]
      exact isPySpace_false_of_isDigit _ (digitOf_isDigit _ (Nat.mod_lt _ (by omega)))

theorem centsRender_length (m : ℕ) : 4 ≤ (centsRender m).length := by
  unfold centsRender
  have := List.length_pos.mpr (natToDigits_ne_nil (m / 100))
  simp [List.length_append]
  omega

/-- The fixed-point rendering of an exact number of cents parses back to the
same rational: `cellParse (format_price p) = some p` whenever `p` is an
integer multiple of 1/100. -/
theorem cellParse_format_price (p : ℚ) (hc : (p * 100).den = 1) :
    cellParse (format_price p) = some p := by
  have hkq : (((p * 100).num : ℤ) : ℚ) = p * 100 := Rat.coe_int_num_of_den_eq_one hc
  set k : ℤ := (p * 100).num with hk
  have hp : p = (k : ℚ) / 100 := by
    rw [hkq]
    field_simp
  have hfloor : Int.floor (p * 100 + 1 / 2) = k := by
    rw [← hkq, Int.floor_int_add]
    norm_num
  have hfp : format_price p =
      if k < 0 then String.mk ('-' :: centsRender k.natAbs)
      else String.mk (centsRender k.toNat) := by
    unfold format_price
    rw [hfloor]
  by_cases hneg : k < 0
  · rw [hfp, if_pos hneg]
    have hnws : ∀ x ∈ '-' :: centsRender k.natAbs, isPySpace x = false := by
      intro x hx
      rcases List.mem_cons.mp hx with rfl | hx
      · decide
      · exact centsRender_no_ws _ x hx
    have hstrip : pyStrip (String.mk ('-' :: centsRender k.natAbs)) =
        String.mk ('-' :: centsRender k.natAbs) := by
      show String.mk (stripChars ('-' :: centsRender k.natAbs)) = _
      rw [stripChars_eq_self _ hnws]
    have hlen := centsRender_length k.natAbs
    have hne0 : String.mk ('-' :: centsRender k.natAbs) ≠ "" := by
      intro he
      rw [show ("" : String) = String.mk [] from rfl] at he
      injection he with he2
      exact List.cons_ne_nil _ _ he2
    have hneq : String.mk ('-' :: centsRender k.natAbs) ≠ "?" := by
      intro he
      rw [show ("?" : String) = String.mk ['?'] from rfl] at he
      injection he with he2
      injection he2 with he3
      exact absurd he3 (by decide)
    have hne00 : String.mk ('-' :: centsRender k.natAbs) ≠ "0" := by
      intro he
      rw [show ("0" : String) = String.mk ['0'] from rfl] at he
      injection he with he2
      injection he2 with he3
      exact absurd he3 (by decide)
    show (if pyStrip (String.mk ('-' :: centsRender k.natAbs)) ≠ "" ∧
        pyStrip (String.mk ('-' :: centsRender k.natAbs)) ≠ "?" ∧
        pyStrip (String.mk ('-' :: centsRender k.natAbs)) ≠ "0"
      then pyFloat (commaToDot (pyStrip (String.mk ('-' :: centsRender k.natAbs))))
      else none) = some p
    rw [hstrip, if_pos ⟨hne0, hneq, hne00⟩]
    show parseFloatChars (('-' :: centsRender k.natAbs).map commaFn) = some p
    rw [List.map_cons, show commaFn '-' = '-' from rfl, parseFloat_neg_centsRender]
    have habs : ((k.natAbs : ℕ) : ℚ) = -(k : ℚ) := by
      have h2 : ((k.natAbs : ℕ) : ℤ) = -k := by
        rw [Int.natCast_natAbs]
        exact abs_of_nonpos (le_of_lt hneg)
      calc ((k.natAbs : ℕ) : ℚ) = (((k.natAbs : ℕ) : ℤ) : ℚ) := by rw [Int.cast_natCast]
        _ = ((-k : ℤ) : ℚ) := by rw [h2]
        _ = -(k : ℚ) := by rw [Int.cast_neg]
    rw [habs, hp]
    ring_nf
  · rw [hfp, if_neg hneg]
    have hstrip : pyStrip (String.mk (centsRender k.toNat)) =
        String.mk (centsRender k.toNat) := by
      show String.mk (stripChars (centsRender k.toNat)) = _
      rw [stripChars_eq_self _ (centsRender_no_ws _)]
    have hlen := centsRender_length k.toNat
    have hne0 : String.mk (centsRender k.toNat) ≠ "" := by
      intro he
      rw [show ("" : String) = String.mk [] from rfl] at he
      injection he with he2
      rw [he2] at hlen
      simp at hlen
    have hneq : String.mk (centsRender k.toNat) ≠ "?" := by
      intro he
      rw [show ("?" : String) = String.mk ['?'] from rfl] at he
      injection he with he2
      rw [he2] at hlen
      simp at hlen
    have hne00 : String.mk (centsRender k.toNat) ≠ "0" := by
      intro he
      rw [show ("0" : String) = String.mk ['0'] from rfl] at he
      injection he with he2
      rw [he2] at hlen
      simp at hlen
    show (if pyStrip (String.mk (centsRender k.toNat)) ≠ "" ∧
        pyStrip (String.mk (centsRender k.toNat)) ≠ "?" ∧
        pyStrip (String.mk (centsRender k.toNat)) ≠ "0"
      then pyFloat (commaToDot (pyStrip (String.mk (centsRender k.toNat))))
      else none) = some p
    rw [hstrip, if_pos ⟨hne0, hneq, hne00⟩]
    show parseFloatChars ((centsRender k.toNat).map commaFn) = some p
    rw [parseFloat_centsRender]
    have htn : ((k.toNat : ℕ) : ℚ) = (k : ℚ) := by
      have h2 : ((k.toNat : ℕ) : ℤ) = k := Int.toNat_of_nonneg (not_lt.mp hneg)
      calc ((k.toNat : ℕ) : ℚ) = (((k.toNat : ℕ) : ℤ) : ℚ) := by rw [Int.cast_natCast]
        _ = (k : ℚ) := by rw [h2]
    rw [htn, hp]

/-! ## The written artifact re-ingested -/

theorem getD_map_range2 {α : Type} (s len i : ℕ) (g : ℕ → α) (d : α) :
    ((List.range' s len).map g).getD i d = if i < len then g (s + i) else d := by
  by_cases h : i < len
  · rw [if_pos h, List.getD_eq_getElem _ _ (by simpa using h)]
    simp
  · rw [if_neg h, List.getD_eq_default]
    simpa using h

theorem headerCells_cons2 (a b : String) (l : List String)
    (h : ∀ s ∈ l, pyStrip s = s ∧ s ≠ "") : headerCells (a :: b :: l) = l := by
  show l.filterMap _ = l
  induction l with
  | nil => rfl
  | cons c l ih =>
    have hc := h c (List.mem_cons_self c l)
    have hfc : (let s := pyStrip c; if s = "" then (none : Option String) else some s)
        = some c := by
      show (if pyStrip c = "" then (none : Option String) else some (pyStrip c)) = some c
      rw [hc.1, if_neg hc.2]
    rw [List.filterMap_cons, hfc, ih fun s hs => h s (List.mem_cons_of_mem c hs)]

theorem cellParse_zero_lit : cellParse "0" = none := by decide

theorem cellParse_question : cellParse "?" = none := by decide

theorem centValued_some (p : ℚ) (h : centValued (some p) = true) : (p * 100).den = 1 := by
  simp [centValued] at h
  exact h

theorem write_rows_length (date train : String) (stations times : List String)
    (prices : List (List (Option ℚ))) :
    (write_tsv_rows date train stations times prices).length = 2 + stations.length := by
  unfold write_tsv_rows
  simp
  omega

theorem write_rows_getD (date train : String) (stations times : List String)
    (prices : List (List (Option ℚ))) (i : ℕ) (hi : i < stations.length) :
    (write_tsv_rows date train stations times prices).getD (i + 2) [] =
      [times.getD i "", stations.getD i ""] ++ List.replicate i "" ++
        (List.range' i (stations.length - i)).map fun j =>
          if i = j then "0"
          else
            match mget prices i j with
            | some p => format_price p
            | none => "?" := by
  show ((List.range stations.length).map _).getD i [] = _
  rw [getD_map_range, if_pos hi]

theorem write_row_length (date train : String) (stations times : List String)
    (prices : List (List (Option ℚ))) (i : ℕ) (hi : i < stations.length) :
    ((write_tsv_rows date train stations times prices).getD (i + 2) []).length =
      2 + stations.length := by
  rw [write_rows_getD date train stations times prices i hi]
  simp
  omega

theorem write_row_cell (date train : String) (stations times : List String)
    (prices : List (List (Option ℚ))) (i j : ℕ) (hi : i < stations.length)
    (hij : i ≤ j) (hj : j < stations.length) :
    ((write_tsv_rows date train stations times prices).getD (i + 2) []).getD (2 + j) "" =
      (if i = j then "0"
       else
        match mget prices i j with
        | some p => format_price p
        | none => "?") := by
  rw [write_rows_getD date train stations times prices i hi]
  rw [show 2 + j = j + 2 from Nat.add_comm 2 j]
  show (List.replicate i "" ++ _).getD j "" = _
  rw [List.getD_append_right _ _ _ _ (by simpa using hij), List.length_replicate,
    getD_map_range2, if_pos (by omega)]
  rw [show i + (j - i) = j from by omega]

theorem mget_eq_getElem (mm : List (List (Option ℚ))) (i j : ℕ)
    (hi : i < mm.length) (hj : j < mm[i].length) :
    mget mm i j = mm[i][j] := by
  unfold mget
  rw [List.getD_eq_getElem _ _ hi, List.getD_eq_getElem _ _ hj]

/-- **C4 amended.** Writing an itinerary with `write_tsv_rows` and re-ingesting
with `parse_tsv_file` reproduces the same station list, time list, and fare
matrix, provided the data is representable in the artifact format: station and
time names nonempty and whitespace-trimmed, one time per station, an n×n
matrix whose diagonal and lower triangle are empty and whose defined fares are
exact multiples of one cent (the granularity of the two-decimal rendering). -/
theorem write_parse_roundtrip (date train : String) (stations times : List String)
    (prices : List (List (Option ℚ)))
    (hst : ∀ s ∈ stations, pyStrip s = s ∧ s ≠ "")
    (htm : ∀ s ∈ times, pyStrip s = s ∧ s ≠ "")
    (hlen : times.length = stations.length)
    (hplen : prices.length = stations.length)
    (hrowlen : ∀ row ∈ prices, row.length = stations.length)
    (hlow : ∀ i ∈ List.range stations.length, ∀ j ∈ List.range stations.length,
      j ≤ i → mget prices i j = none)
    (hcent : ∀ i ∈ List.range stations.length, ∀ j ∈ List.range stations.length,
      centValued (mget prices i j) = true) :
    parse_tsv_file (write_tsv_rows date train stations times prices) =
      Except.ok (stations, times, prices) := by
  have hw : write_tsv_rows date train stations times prices =
      (date :: train :: times) :: ("" :: "" :: stations) ::
        ((List.range stations.length).map fun i =>
          [times.getD i "", stations.getD i ""] ++ List.replicate i "" ++
            (List.range' i (stations.length - i)).map fun j =>
              if i = j then "0"
              else
                match mget prices i j with
                | some p => format_price p
                | none => "?") := rfl
  rw [hw, parse_ok_components]
  rw [headerCells_cons2 "" "" stations hst, headerCells_cons2 date train times htm]
  rw [← hw]
  simp only [Except.ok.injEq, Prod.mk.injEq]
  refine ⟨trivial, trivial, ?_⟩
  apply List.ext_getElem
  · rw [hplen]
    simp
  intro i h1 h2
  have hi : i < stations.length := by simpa using h1
  simp only [List.getElem_map, List.getElem_range]
  apply List.ext_getElem
  · rw [hrowlen prices[i] (List.getElem_mem h2)]
    simp
  intro j hj1 hj2
  have hj : j < stations.length := by simpa using hj1
  simp only [List.getElem_map, List.getElem_range]
  rw [write_rows_length]
  by_cases hij : i ≤ j
  · rw [if_pos ⟨by omega, hij⟩, write_row_length date train stations times prices i hi,
      if_pos (by omega), write_row_cell date train stations times prices i j hi hij hj]
    by_cases hieq : i = j
    · rw [if_pos hieq, cellParse_zero_lit]
      have hm := hlow i (List.mem_range.mpr hi) j (List.mem_range.mpr hj) (by omega)
      rw [mget_eq_getElem prices i j h2 hj2] at hm
      exact hm.symm
    · rw [if_neg hieq]
      cases hmv : mget prices i j with
      | none =>
        show cellParse "?" = _
        rw [cellParse_question]
        rw [mget_eq_getElem prices i j h2 hj2] at hmv
        exact hmv.symm
      | some p =>
        show cellParse (format_price p) = _
        have hcv := hcent i (List.mem_range.mpr hi) j (List.mem_range.mpr hj)
        rw [hmv] at hcv
        rw [cellParse_format_price p (centValued_some p hcv)]
        rw [mget_eq_getElem prices i j h2 hj2] at hmv
        exact hmv.symm
  · rw [if_neg fun hh => hij hh.2]
    have hm := hlow i (List.mem_range.mpr hi) j (List.mem_range.mpr hj) (by omega)
    rw [mget_eq_getElem prices i j h2 hj2] at hm
    exact hm.symm

/-- **C4 counterexample.** The round trip is not the identity on every input:
a station name with trailing whitespace (here `"B "`) is stripped by
re-ingestion, so the returned station list differs from the written one. -/
theorem write_parse_not_id :
    parse_tsv_file (write_tsv_rows "d" "t" ["A", "B "] ["10:00", "11:00"]
        [[none, none], [none, none]]) ≠
      Except.ok (["A", "B "], ["10:00", "11:00"], [[none, none], [none, none]]) := by
  intro h
  have h2 : parse_tsv_file (write_tsv_rows "d" "t" ["A", "B "] ["10:00", "11:00"]
      [[none, none], [none, none]]) =
    Except.ok (["A", "B"], ["10:00", "11:00"], [[none, none], [none, none]]) := rfl
  rw [h2] at h
  have h3 := Except.ok.inj h
  have h4 : (["A", "B"] : List String) = ["A", "B "] := congrArg Prod.fst h3
  exact absurd h4 (by decide)

/-- Witness for C4's amended statement: a clean two-station itinerary with the
single fare 1.50 EUR round-trips exactly. -/
theorem write_parse_roundtrip_witness :
    parse_tsv_file (write_tsv_rows "01.01" "ICE" ["A", "B"] ["10:00", "11:00"]
        [[none, some (3 / 2)], [none, none]]) =
      Except.ok (["A", "B"], ["10:00", "11:00"],
        [[none, some (3 / 2)], [none, none]]) :=
  write_parse_roundtrip "01.01" "ICE" ["A", "B"] ["10:00", "11:00"]
    [[none, some (3 / 2)], [none, none]]
    (by decide) (by decide) (by decide) (by decide) (by decide) (by decide)
    (by with_unfolding_all decide)
